import Mathlib

/-!
Shallow embedding of the propositional resolution-refutation prover in
`src/Lab02_Logic/PS4/main.py`, together with theorems checking the
natural-language specification against it.

Modelling conventions:
- Python machine strings are Lean `String`s; `str.strip()` is `strip` and
  `str.split('OR')` is `splitOnOR`, both defined below over the underlying
  character lists with Python's semantics.
- A Python `IndexError` escaping a function (there is no `try` in the file) is
  modelled by the function returning `none`.
- Python `set`s of clauses are `Finset Clause`.  All clauses the algorithm
  ever puts into a set are in canonical (cleaned) form, on which the
  source's set-based `Clause.__eq__` coincides with structural equality.
- Python's `sorted` (ascending by `__lt__`, applied to the deduplicated
  literals) is `List.insertionSort` by `≤` of the linear order defined below,
  which agrees with the source's `Literal.__lt__`.
-/

/-- A propositional literal: a `symbol` together with a `negation` flag
(class `Literal` of the source). -/
structure Literal where
  symbol : String
  negation : Bool
deriving DecidableEq, Repr

/-- The sort key of a literal: the symbol's character list first (Python
compares strings lexicographically by characters), then the negation flag
(`False < True` in Python), exactly the order of `Literal.__lt__`. -/
def Literal.key (l : Literal) : (List Char) ×ₗ Bool := toLex (l.symbol.data, l.negation)

instance : LinearOrder Literal :=
  LinearOrder.lift' Literal.key (by
    intro a b h
    have h2 : (a.symbol.data, a.negation) = (b.symbol.data, b.negation) := toLex.injective h
    have h3 : a.symbol = b.symbol := by
      cases ha : a.symbol with
      | mk da =>
        cases hb : b.symbol with
        | mk db =>
          have : da = db := by
            have := congrArg Prod.fst h2
            simpa [ha, hb] using this
          rw [this]
    cases a; cases b
    simp only at h3
    simp [h3]
    simpa using congrArg Prod.snd h2)

/-- Flipping the negation flag (`Literal.negate` of the source, modelled
functionally: the source flips the flag in place). -/
def Literal.negate (l : Literal) : Literal := ⟨l.symbol, !l.negation⟩

/-- Whether two literals have the same symbol and opposite negation
(`Literal.is_opposite` of the source). -/
def Literal.is_opposite (a b : Literal) : Bool :=
  a.negation != b.negation && a.symbol == b.symbol

/-- Whitespace stripping at both ends of a character list, as Python's
`str.strip()` does (Lean's `String.trim` is a well-founded byte-position
loop the kernel cannot evaluate, so stripping is modelled directly on the
character list). -/
def stripData (l : List Char) : List Char :=
  ((l.dropWhile Char.isWhitespace).reverse.dropWhile Char.isWhitespace).reverse

/-- Python's `str.strip()` for strings. -/
def strip (s : String) : String := ⟨stripData s.data⟩

/-- Python's `str.split('OR')` on a character list: cut at every
non-overlapping occurrence of the two characters `OR`, scanning left to
right; `n` separators yield `n+1` (possibly empty) pieces. -/
def splitOnORData : List Char → List (List Char)
  | [] => [[]]
  | 'O' :: 'R' :: rest => [] :: splitOnORData rest
  | c :: rest =>
    match splitOnORData rest with
    | [] => [[c]]
    | head :: tail => (c :: head) :: tail

/-- Python's `str.split('OR')` for strings. -/
def splitOnOR (s : String) : List String :=
  (splitOnORData s.data).map String.mk

/-- Parsing of one literal token (`Literal.parse_literal` of the source):
strip whitespace; a leading hyphen marks negation and the symbol is the
character right after it, otherwise the symbol is the first character.
The source's uncaught `IndexError` on out-of-range indexing (empty token, or
a token that is exactly a hyphen) is modelled as `none`. -/
def Literal.parse_literal (string_literal : String) : Option Literal :=
  match (strip string_literal).data with
  | [] => none
  | c :: rest =>
    if c = '-' then
      match rest with
      | [] => none
      | c2 :: _ => some ⟨String.mk [c2], true⟩
    else some ⟨String.mk [c], false⟩

/-- A clause: a list of literals (class `Clause` of the source). -/
structure Clause where
  literals : List Literal
deriving DecidableEq, Repr

/-- Whether the clause has no literals (`Clause.is_empty` of the source). -/
def Clause.is_empty (c : Clause) : Bool := c.literals.isEmpty

/-- The adjacent-pair scan of `Clause.is_meaningless`: the source checks
each index `i` against `i+1`. -/
def Clause.adjacentOpposite : List Literal → Bool
  | a :: b :: rest => a.is_opposite b || Clause.adjacentOpposite (b :: rest)
  | _ => false

/-- Whether some literal is the opposite of the literal right after it
(`Clause.is_meaningless` of the source). -/
def Clause.is_meaningless (c : Clause) : Bool := Clause.adjacentOpposite c.literals

/-- Deduplicate the literals and sort them (`Clause.clean` of the source,
`sorted(set(self.literals))`): since all literals are distinct after
deduplication and the order is linear, Python's `sorted` by `__lt__` yields
the unique `≤`-sorted enumeration, here by insertion sort. -/
def Clause.clean (c : Clause) : Clause :=
  ⟨List.insertionSort (fun a b => a ≤ b) c.literals.dedup⟩

/-- Negate every literal of the clause (`Clause.negate_literals` of the
source, which flips each literal's flag in place, keeping list order). -/
def Clause.negate_literals (c : Clause) : Clause :=
  ⟨c.literals.map Literal.negate⟩

/-- Parse a clause string (`Clause.parse_clause` of the source): strip, split
on the substring `OR`, parse every token, collect the literals in order,
then clean. Fails (`none`) iff some token fails to parse. -/
def Clause.parse_clause (string_clause : String) : Option Clause :=
  ((splitOnOR (strip string_clause)).mapM Literal.parse_literal).bind
    (fun lits => some (Clause.clean ⟨lits⟩))

/-- Copy of a clause keeping every literal not equal to the given one
(`Clause.clone_without_literal` of the source). -/
def Clause.clone_without_literal (c : Clause) (literal : Literal) : Clause :=
  ⟨c.literals.filter (fun lit => lit != literal)⟩

/-- Union of the literals of two clauses, cleaned (`Clause.merge` of the
source: concatenates the two literal lists into a fresh clause, then cleans). -/
def Clause.merge (clause1 clause2 : Clause) : Clause :=
  Clause.clean ⟨clause1.literals ++ clause2.literals⟩

/-- The resolvent built from one pair of literals inside `Clause.resolve`:
`Clause.merge(clause1.clone_without_literal(literal1), clause2.clone_without_literal(literal2))`. -/
def Clause.resolventOf (clause1 clause2 : Clause) (literal1 literal2 : Literal) : Clause :=
  Clause.merge (clause1.clone_without_literal literal1)
    (clause2.clone_without_literal literal2)

/-- The inner `for literal2 in clause2.literals` loop of `Clause.resolve`,
threading the accumulated resolvent set and empty-clause flag: for an
opposite pair, the resolvent is skipped when meaningless (`continue`),
otherwise the flag absorbs `is_empty` and the resolvent is added. -/
def Clause.resolveInner (clause1 clause2 : Clause) (literal1 : Literal)
    (acc : Finset Clause × Bool) : List Literal → Finset Clause × Bool
  | [] => acc
  | literal2 :: rest =>
    Clause.resolveInner clause1 clause2 literal1
      (if literal1.is_opposite literal2 then
        let new_clause := Clause.resolventOf clause1 clause2 literal1 literal2
        if new_clause.is_meaningless then acc
        else (insert new_clause acc.1, acc.2 || new_clause.is_empty)
      else acc) rest

/-- The outer `for literal1 in clause1.literals` loop of `Clause.resolve`. -/
def Clause.resolveOuter (clause1 clause2 : Clause)
    (acc : Finset Clause × Bool) : List Literal → Finset Clause × Bool
  | [] => acc
  | literal1 :: rest =>
    Clause.resolveOuter clause1 clause2
      (Clause.resolveInner clause1 clause2 literal1 acc clause2.literals) rest

/-- Resolve two clauses (`Clause.resolve` of the source): for every pair of
opposite literals, merge the two clones-without; skip the resolvent if it is
meaningless; record whether an empty resolvent appeared; accumulate the
resolvents into a set.  The nested `for` loops are the two recursions above,
started from the empty set and a cleared flag. -/
def Clause.resolve (clause1 clause2 : Clause) : Finset Clause × Bool :=
  Clause.resolveOuter clause1 clause2 (∅, false) clause1.literals

/-- A knowledge base: a list of clauses (class `KnowledgeBase` of the source). -/
structure KnowledgeBase where
  clauses : List Clause
deriving DecidableEq, Repr

/-- Build a knowledge base (`KnowledgeBase.build_knowledge_base` of the
source): split the query on `OR`, parse every token as a clause and negate
its literals, adding each as its own clause; then parse and clean every
support clause string.  A parse failure anywhere is modelled as `none`
(the source's uncaught `IndexError` aborts the build). -/
def KnowledgeBase.build_knowledge_base (alpha_string : String)
    (clause_strings : List String) : Option KnowledgeBase :=
  ((splitOnOR (strip alpha_string)).mapM
      (fun alpha_literal => (Clause.parse_clause alpha_literal).map Clause.negate_literals)).bind
    (fun negatedUnits =>
      (clause_strings.mapM
          (fun clause_str => (Clause.parse_clause clause_str).map Clause.clean)).bind
        (fun supports => some ⟨negatedUnits ++ supports⟩))

/-- One round's crop of resolvents: the union of the resolvent sets over all
pairs of distinct current clauses.  The source iterates
`combinations(input_clauses, 2)`, visiting each unordered pair once;
since `Clause.resolve` is symmetric (lemma `Clause.resolve_comm`), the union
over both orientations of `offDiag` is the same set. -/
def KnowledgeBase.roundNew (input_clauses : Finset Clause) : Finset Clause :=
  input_clauses.offDiag.sup (fun p => (Clause.resolve p.1 p.2).1)

/-- Whether some pair of distinct current clauses produces the empty clause
in this round (the source's `is_unsatisfiable |= is_empty` accumulator: it
is freshly `False` at each round's start because the loop returns as soon as
it becomes `True`). -/
def KnowledgeBase.roundEmpty (input_clauses : Finset Clause) : Bool :=
  decide (∃ p ∈ input_clauses.offDiag, (Clause.resolve p.1 p.2).2 = true)

/-- The `while True` saturation loop of `KnowledgeBase.pl_resolution`, with
explicit fuel; `none` means the fuel ran out before the loop returned.  Each
iteration of the source computes `new` (the round's resolvents) and the
`is_unsatisfiable` flag, appends `diff_clauses = new - input_clauses` to the
output list, merges `new` into `input_clauses`, then returns `True` if the
flag is set, returns `False` if `diff_clauses` was empty, and loops
otherwise; the local names are inlined here, preserving that order of
effects and the returned values exactly (the flag accumulator `|=` is fresh
per round because the loop returns as soon as it is set). -/
def KnowledgeBase.plLoop (fuel : Nat) (input_clauses : Finset Clause)
    (output_clauses : List (Finset Clause)) : Option (Bool × List (Finset Clause)) :=
  match fuel with
  | 0 => none
  | Nat.succ fuel =>
    if KnowledgeBase.roundEmpty input_clauses then
      some (true, output_clauses ++ [KnowledgeBase.roundNew input_clauses \ input_clauses])
    else if KnowledgeBase.roundNew input_clauses \ input_clauses = ∅ then
      some (false, output_clauses ++ [KnowledgeBase.roundNew input_clauses \ input_clauses])
    else
      KnowledgeBase.plLoop fuel
        (input_clauses ∪ KnowledgeBase.roundNew input_clauses)
        (output_clauses ++ [KnowledgeBase.roundNew input_clauses \ input_clauses])

/-- The resolution saturation algorithm (`KnowledgeBase.pl_resolution` of the
source) with explicit fuel: start from the set of the knowledge base's
clauses and an empty per-round list. -/
def KnowledgeBase.pl_resolution (kb : KnowledgeBase) (fuel : Nat) :
    Option (Bool × List (Finset Clause)) :=
  KnowledgeBase.plLoop fuel kb.clauses.toFinset []

/-- Set-based clause equality (`Clause.__eq__` of the source:
`set(self.literals) == set(clause.literals)`). -/
def Clause.eqSet (clause1 clause2 : Clause) : Bool :=
  decide (clause1.literals.toFinset = clause2.literals.toFinset)

/-- The string `Literal.__hash__` of the source hashes: the symbol, prefixed
with a hyphen when negated. -/
def Literal.hashKey (l : Literal) : String :=
  if l.negation then "-" ++ l.symbol else l.symbol

/-- The data `Clause.__hash__` of the source hashes: the tuple of the
clause's literals in list order, modelled as the sequence of the literals'
hash keys (Python's `hash` is a deterministic function of this sequence, so
two clauses hash equal whenever their hash-key sequences are equal). -/
def Clause.hashKey (c : Clause) : List String :=
  c.literals.map Literal.hashKey

/-- Append a clause (`KnowledgeBase.add_clause` of the source; the in-place
`self.clauses.append` is modelled by returning the updated knowledge base). -/
def KnowledgeBase.add_clause (kb : KnowledgeBase) (clause : Clause) : KnowledgeBase :=
  ⟨kb.clauses ++ [clause]⟩

/-- State-passing form of `Clause.clone_without_literal`: the fresh clause
paired with the contents of `self` after the call.  The source only reads
`self.literals` and appends to the new clause, so `self` is returned as it
came in. -/
def Clause.clone_without_literalS (c : Clause) (literal : Literal) : Clause × Clause :=
  (c.clone_without_literal literal, c)

/-- State-passing form of `Clause.merge`: the fresh clause paired with the
contents of the two argument clauses after the call.  The source reads both
literal lists, concatenates them into a new object and cleans only the new
object, so the arguments are returned as they came in. -/
def Clause.mergeS (clause1 clause2 : Clause) : Clause × Clause × Clause :=
  (Clause.merge clause1 clause2, clause1, clause2)

/-- State-passing form of `Clause.resolve`: the result paired with the
contents of the two argument clauses after the call.  The source builds
resolvents through `clone_without_literal` and `merge` on fresh objects only
and never assigns to an input clause's `literals`, so the inputs are
returned as they came in. -/
def Clause.resolveS (clause1 clause2 : Clause) :
    (Finset Clause × Bool) × Clause × Clause :=
  (Clause.resolve clause1 clause2, clause1, clause2)

/-- State-passing form of `KnowledgeBase.pl_resolution`: the result paired
with the knowledge base after the call.  The source reads `self.clauses`
once into a local set and never mutates `self` (the only mutator,
`add_clause`, is not called), so the knowledge base is returned as it came
in. -/
def KnowledgeBase.pl_resolutionS (kb : KnowledgeBase) (fuel : Nat) :
    Option (Bool × List (Finset Clause)) × KnowledgeBase :=
  (kb.pl_resolution fuel, kb)

/-- The working set of clauses at the start of round `i` (rounds counted
from 0): `input_clauses` after `i` rounds of absorbing that round's crop. -/
def KnowledgeBase.stateAt (S0 : Finset Clause) : Nat → Finset Clause
  | 0 => S0
  | Nat.succ i =>
    KnowledgeBase.stateAt S0 i ∪ KnowledgeBase.roundNew (KnowledgeBase.stateAt S0 i)

/-- Round `i`'s `diff_clauses`: the resolvents of round `i` that were not
already in the working set. -/
def KnowledgeBase.diffAt (S0 : Finset Clause) (i : Nat) : Finset Clause :=
  KnowledgeBase.roundNew (KnowledgeBase.stateAt S0 i) \ KnowledgeBase.stateAt S0 i

/-!
Theorems.  First some facts about the literal order and `clean`, then the
claim theorems.
-/

/-- The derived order on literals agrees with `Literal.__lt__` of the
source: compare symbols first, then negation flags (`False < True`). -/
theorem Literal.lt_def (a b : Literal) :
    a < b ↔ a.symbol < b.symbol ∨ (a.symbol = b.symbol ∧ a.negation < b.negation) := by
  have h := Prod.Lex.lt_iff (a.symbol.data, a.negation) (b.symbol.data, b.negation)
  constructor
  · intro hk
    rcases h.mp hk with hl | ⟨he, hn⟩
    · exact Or.inl (String.lt_iff_toList_lt.mpr hl)
    · exact Or.inr ⟨congrArg String.mk he, hn⟩
  · intro hk
    refine h.mpr ?_
    rcases hk with hl | ⟨he, hn⟩
    · exact Or.inl (String.lt_iff_toList_lt.mp hl)
    · exact Or.inr ⟨by rw [he], hn⟩

/-- The non-strict version of the literal order. -/
theorem Literal.le_def (a b : Literal) :
    a ≤ b ↔ a.symbol < b.symbol ∨ (a.symbol = b.symbol ∧ a.negation ≤ b.negation) := by
  have h := Prod.Lex.le_iff (a.symbol.data, a.negation) (b.symbol.data, b.negation)
  constructor
  · intro hk
    rcases h.mp hk with hl | ⟨he, hn⟩
    · exact Or.inl (String.lt_iff_toList_lt.mpr hl)
    · exact Or.inr ⟨congrArg String.mk he, hn⟩
  · intro hk
    refine h.mpr ?_
    rcases hk with hl | ⟨he, hn⟩
    · exact Or.inl (String.lt_iff_toList_lt.mp hl)
    · exact Or.inr ⟨by rw [he], hn⟩

/-- Unfolding of `Literal.is_opposite`. -/
theorem Literal.is_opposite_iff (a b : Literal) :
    a.is_opposite b = true ↔ a.negation ≠ b.negation ∧ a.symbol = b.symbol := by
  simp [Literal.is_opposite]

/-- The literals of a cleaned clause are sorted. -/
theorem Clause.clean_sorted (c : Clause) :
    c.clean.literals.Sorted (fun a b => a ≤ b) :=
  List.sorted_insertionSort _ _

/-- The literals of a cleaned clause carry no duplicates. -/
theorem Clause.clean_nodup (c : Clause) : c.clean.literals.Nodup :=
  (List.perm_insertionSort _ _).nodup_iff.mpr c.literals.nodup_dedup

/-- Cleaning keeps exactly the literals that were present. -/
theorem Clause.mem_clean (c : Clause) (l : Literal) :
    l ∈ c.clean.literals ↔ l ∈ c.literals := by
  rw [Clause.clean]
  rw [List.Perm.mem_iff (List.perm_insertionSort _ _)]
  exact List.mem_dedup

/-- Structure eta for literals. -/
theorem Literal.eta (a : Literal) : (⟨a.symbol, a.negation⟩ : Literal) = a := rfl

/-- Cleaning depends only on the set of literals: lists with the same
literal set clean to the same clause. -/
theorem Clause.clean_eq_of_toFinset_eq (l1 l2 : List Literal)
    (h : l1.toFinset = l2.toFinset) :
    Clause.clean ⟨l1⟩ = Clause.clean ⟨l2⟩ := by
  have hd : List.Perm l1.dedup l2.dedup := List.toFinset_eq_iff_perm_dedup.mp h
  have hp : List.Perm (List.insertionSort (fun a b => a ≤ b) l1.dedup)
      (List.insertionSort (fun a b => a ≤ b) l2.dedup) :=
    ((List.perm_insertionSort _ _).trans hd).trans (List.perm_insertionSort _ _).symm
  have he := List.eq_of_perm_of_sorted hp
    (List.sorted_insertionSort _ _) (List.sorted_insertionSort _ _)
  exact congrArg Clause.mk he

/-- If the adjacent-pair scan fires, both polarities of some symbol are in
the list (no order assumptions needed for this direction). -/
theorem Clause.adjacentOpposite_both (l : List Literal)
    (h : Clause.adjacentOpposite l = true) :
    ∃ s : String, (⟨s, false⟩ : Literal) ∈ l ∧ (⟨s, true⟩ : Literal) ∈ l := by
  induction l with
  | nil => simp [Clause.adjacentOpposite] at h
  | cons a t ih =>
    cases t with
    | nil => simp [Clause.adjacentOpposite] at h
    | cons b r =>
      rw [Clause.adjacentOpposite, Bool.or_eq_true] at h
      rcases h with h | h
      · obtain ⟨hneg, hsym⟩ := (Literal.is_opposite_iff a b).mp h
        refine ⟨a.symbol, ?_, ?_⟩
        · rcases Bool.eq_false_or_eq_true a.negation with ha | ha
          · have hbn : b.negation = false := by
              rcases Bool.eq_false_or_eq_true b.negation with hb | hb
              · exact absurd (ha.trans hb.symm) hneg
              · exact hb
            have heb : (⟨a.symbol, false⟩ : Literal) = b := by
              rw [hsym, ← hbn]
            rw [heb]; exact List.mem_cons_of_mem a (List.mem_cons_self b r)
          · have hea : (⟨a.symbol, false⟩ : Literal) = a := by
              rw [← ha]
            rw [hea]; exact List.mem_cons_self a _
        · rcases Bool.eq_false_or_eq_true a.negation with ha | ha
          · have hea : (⟨a.symbol, true⟩ : Literal) = a := by
              rw [← ha]
            rw [hea]; exact List.mem_cons_self a _
          · have hbn : b.negation = true := by
              rcases Bool.eq_false_or_eq_true b.negation with hb | hb
              · exact hb
              · exact absurd (ha.trans hb.symm) hneg
            have heb : (⟨a.symbol, true⟩ : Literal) = b := by
              rw [hsym, ← hbn]
            rw [heb]; exact List.mem_cons_of_mem a (List.mem_cons_self b r)
      · obtain ⟨s, h1, h2⟩ := ih h
        exact ⟨s, List.mem_cons_of_mem a h1, List.mem_cons_of_mem a h2⟩

/-- The unnegated literal of a symbol sorts strictly before the negated one. -/
theorem Literal.false_lt_true (s : String) :
    (⟨s, false⟩ : Literal) < (⟨s, true⟩ : Literal) := by
  rw [Literal.lt_def]
  right
  exact ⟨rfl, by rw [Bool.lt_iff]; exact ⟨rfl, rfl⟩⟩

/-- On a sorted, duplicate-free list holding both polarities of a symbol,
the two polarities are adjacent, so the adjacent-pair scan fires. -/
theorem Clause.adjacentOpposite_of_both (l : List Literal)
    (hs : l.Sorted (fun a b => a ≤ b)) (hn : l.Nodup) (s : String)
    (h0 : (⟨s, false⟩ : Literal) ∈ l) (h1 : (⟨s, true⟩ : Literal) ∈ l) :
    Clause.adjacentOpposite l = true := by
  induction l with
  | nil => simp at h0
  | cons a t ih =>
    rw [List.sorted_cons] at hs
    rw [List.nodup_cons] at hn
    by_cases ha0 : a = ⟨s, false⟩
    · have h1t : (⟨s, true⟩ : Literal) ∈ t := by
        rcases List.mem_cons.mp h1 with h | h
        · rw [ha0] at h; simp at h
        · exact h
      cases t with
      | nil => simp at h1t
      | cons b r =>
        have hb : b = ⟨s, true⟩ := by
          rcases List.mem_cons.mp h1t with h | h
          · exact h.symm
          · have hab : a ≤ b := hs.1 b (List.mem_cons_self b r)
            have hbs : b ≤ ⟨s, true⟩ := (List.sorted_cons.mp hs.2).1 _ h
            have hanb : a ≠ b := fun he => hn.1 (he ▸ List.mem_cons_self b r)
            have hab2 : (⟨s, false⟩ : Literal) < b := by
              rw [← ha0]; exact lt_of_le_of_ne hab hanb
            rcases (Literal.lt_def _ _).mp hab2 with hlt | ⟨hsy, hng⟩
            · rcases (Literal.le_def _ _).mp hbs with hlt2 | ⟨hsy2, _⟩
              · exact absurd (hlt.trans hlt2) (lt_irrefl _)
              · rw [hsy2] at hlt; exact absurd hlt (lt_irrefl _)
            · have hng2 : b.negation = true := ((Bool.lt_iff).mp hng).2
              rw [← Literal.eta b, hng2, ← hsy]
        rw [Clause.adjacentOpposite, Bool.or_eq_true]
        left
        rw [Literal.is_opposite_iff, ha0, hb]
        simp
    · have h0t : (⟨s, false⟩ : Literal) ∈ t := by
        rcases List.mem_cons.mp h0 with h | h
        · exact absurd h.symm ha0
        · exact h
      have h1t : (⟨s, true⟩ : Literal) ∈ t := by
        rcases List.mem_cons.mp h1 with h | h
        · exfalso
          have hle : a ≤ ⟨s, false⟩ := hs.1 _ h0t
          have hlt : (⟨s, false⟩ : Literal) < a := h ▸ Literal.false_lt_true s
          exact absurd (lt_of_le_of_lt hle hlt) (lt_irrefl _)
        · exact h
      cases t with
      | nil => simp at h0t
      | cons b r =>
        rw [Clause.adjacentOpposite, Bool.or_eq_true]
        right
        exact ih hs.2 hn.2 h0t h1t

/-- C3: on a cleaned clause (deduplicated, sorted by symbol with unnegated
before negated), `is_meaningless` returns true iff the clause contains, for
some symbol, both the unnegated and the negated literal of that symbol: the
adjacent-pair check is equivalent to containing a complementary pair. -/
theorem claim_C3 (c : Clause) (h : c.clean = c) :
    c.is_meaningless = true ↔
      ∃ s : String, (⟨s, false⟩ : Literal) ∈ c.literals ∧
        (⟨s, true⟩ : Literal) ∈ c.literals := by
  have hs : c.literals.Sorted (fun a b => a ≤ b) := h ▸ Clause.clean_sorted c
  have hn : c.literals.Nodup := h ▸ Clause.clean_nodup c
  constructor
  · exact fun hm => Clause.adjacentOpposite_both c.literals hm
  · rintro ⟨s, h0, h1⟩
    exact Clause.adjacentOpposite_of_both c.literals hs hn s h0 h1

/-- Witness for C3 at the concrete cleaned tautological clause
built from the literals `A` and `-A`. -/
theorem claim_C3_witness :
    ((Clause.clean ⟨[⟨"A", false⟩, ⟨"A", true⟩]⟩).clean
        = Clause.clean ⟨[⟨"A", false⟩, ⟨"A", true⟩]⟩) ∧
      ((Clause.clean ⟨[⟨"A", false⟩, ⟨"A", true⟩]⟩).is_meaningless = true ↔
        ∃ s : String,
          (⟨s, false⟩ : Literal) ∈ (Clause.clean ⟨[⟨"A", false⟩, ⟨"A", true⟩]⟩).literals ∧
          (⟨s, true⟩ : Literal) ∈ (Clause.clean ⟨[⟨"A", false⟩, ⟨"A", true⟩]⟩).literals) :=
  ⟨by decide, claim_C3 _ (by decide)⟩

/-- C4: two clauses built from the same set of literals added in different
orders and then cleaned (as every stored clause is) compare equal under the
source's set-based `__eq__` and carry equal hash data, since both
canonicalize to the same literal sequence. -/
theorem claim_C4 (l1 l2 : List Literal) (h : l1.toFinset = l2.toFinset) :
    Clause.eqSet (Clause.clean ⟨l1⟩) (Clause.clean ⟨l2⟩) = true ∧
      Clause.hashKey (Clause.clean ⟨l1⟩) = Clause.hashKey (Clause.clean ⟨l2⟩) := by
  have he := Clause.clean_eq_of_toFinset_eq l1 l2 h
  rw [he]
  exact ⟨by simp [Clause.eqSet], rfl⟩

/-- Witness for C4 at the literal lists `[A, B]` and `[B, A]`. -/
theorem claim_C4_witness :
    ([⟨"A", false⟩, ⟨"B", false⟩] : List Literal).toFinset
        = ([⟨"B", false⟩, ⟨"A", false⟩] : List Literal).toFinset ∧
      (Clause.eqSet (Clause.clean ⟨[⟨"A", false⟩, ⟨"B", false⟩]⟩)
          (Clause.clean ⟨[⟨"B", false⟩, ⟨"A", false⟩]⟩) = true ∧
        Clause.hashKey (Clause.clean ⟨[⟨"A", false⟩, ⟨"B", false⟩]⟩)
          = Clause.hashKey (Clause.clean ⟨[⟨"B", false⟩, ⟨"A", false⟩]⟩)) :=
  ⟨by decide, claim_C4 _ _ (by decide)⟩

/-- What the inner resolution loop accumulates: a clause is in the output
set iff it was already accumulated or arises from `literal1` and some
literal of the scanned list as a non-meaningless resolvent. -/
theorem Clause.resolveInner_mem (clause1 clause2 : Clause) (literal1 : Literal)
    (acc : Finset Clause × Bool) (lits : List Literal) (x : Clause) :
    x ∈ (Clause.resolveInner clause1 clause2 literal1 acc lits).1 ↔
      x ∈ acc.1 ∨ ∃ l2 ∈ lits, literal1.is_opposite l2 = true ∧
        (Clause.resolventOf clause1 clause2 literal1 l2).is_meaningless = false ∧
        x = Clause.resolventOf clause1 clause2 literal1 l2 := by
  induction lits generalizing acc with
  | nil => simp [Clause.resolveInner]
  | cons l2 rest ih =>
    rw [Clause.resolveInner, ih]
    by_cases hop : literal1.is_opposite l2 = true
    · by_cases hm : (Clause.resolventOf clause1 clause2 literal1 l2).is_meaningless = true
      · simp only [hop, hm, eq_self_iff_true, if_true]
        constructor
        · rintro (h | ⟨y, hy, h1, h2, h3⟩)
          · exact Or.inl h
          · exact Or.inr ⟨y, List.mem_cons_of_mem l2 hy, h1, h2, h3⟩
        · rintro (h | ⟨y, hy, h1, h2, h3⟩)
          · exact Or.inl h
          · rcases List.mem_cons.mp hy with he | he
            · rw [he] at h2; rw [h2] at hm; simp at hm
            · exact Or.inr ⟨y, he, h1, h2, h3⟩
      · rw [Bool.not_eq_true] at hm
        simp only [hop, hm, eq_self_iff_true, if_true, Bool.false_eq_true, if_false,
          Finset.mem_insert]
        constructor
        · rintro ((h | h) | ⟨y, hy, h1, h2, h3⟩)
          · exact Or.inr ⟨l2, List.mem_cons_self l2 rest, hop, hm, h⟩
          · exact Or.inl h
          · exact Or.inr ⟨y, List.mem_cons_of_mem l2 hy, h1, h2, h3⟩
        · rintro (h | ⟨y, hy, h1, h2, h3⟩)
          · exact Or.inl (Or.inr h)
          · rcases List.mem_cons.mp hy with he | he
            · rw [he] at h3; exact Or.inl (Or.inl h3)
            · exact Or.inr ⟨y, he, h1, h2, h3⟩
    · rw [Bool.not_eq_true] at hop
      simp only [hop, Bool.false_eq_true, if_false]
      constructor
      · rintro (h | ⟨y, hy, h1, h2, h3⟩)
        · exact Or.inl h
        · exact Or.inr ⟨y, List.mem_cons_of_mem l2 hy, h1, h2, h3⟩
      · rintro (h | ⟨y, hy, h1, h2, h3⟩)
        · exact Or.inl h
        · rcases List.mem_cons.mp hy with he | he
          · rw [he] at h1; rw [h1] at hop; exact absurd hop (by simp)
          · exact Or.inr ⟨y, he, h1, h2, h3⟩

/-- What the inner resolution loop does to the empty-clause flag: it is set
iff it was already set or `literal1` and some scanned literal produce a
non-meaningless empty resolvent. -/
theorem Clause.resolveInner_flag (clause1 clause2 : Clause) (literal1 : Literal)
    (acc : Finset Clause × Bool) (lits : List Literal) :
    (Clause.resolveInner clause1 clause2 literal1 acc lits).2 = true ↔
      acc.2 = true ∨ ∃ l2 ∈ lits, literal1.is_opposite l2 = true ∧
        (Clause.resolventOf clause1 clause2 literal1 l2).is_meaningless = false ∧
        (Clause.resolventOf clause1 clause2 literal1 l2).is_empty = true := by
  induction lits generalizing acc with
  | nil => simp [Clause.resolveInner]
  | cons l2 rest ih =>
    rw [Clause.resolveInner, ih]
    by_cases hop : literal1.is_opposite l2 = true
    · by_cases hm : (Clause.resolventOf clause1 clause2 literal1 l2).is_meaningless = true
      · simp only [hop, hm, eq_self_iff_true, if_true]
        constructor
        · rintro (h | ⟨y, hy, h1, h2, h3⟩)
          · exact Or.inl h
          · exact Or.inr ⟨y, List.mem_cons_of_mem l2 hy, h1, h2, h3⟩
        · rintro (h | ⟨y, hy, h1, h2, h3⟩)
          · exact Or.inl h
          · rcases List.mem_cons.mp hy with he | he
            · rw [he] at h2; rw [h2] at hm; simp at hm
            · exact Or.inr ⟨y, he, h1, h2, h3⟩
      · rw [Bool.not_eq_true] at hm
        simp only [hop, hm, eq_self_iff_true, if_true, Bool.false_eq_true, if_false,
          Bool.or_eq_true]
        constructor
        · rintro ((h | h) | ⟨y, hy, h1, h2, h3⟩)
          · exact Or.inl h
          · exact Or.inr ⟨l2, List.mem_cons_self l2 rest, hop, hm, h⟩
          · exact Or.inr ⟨y, List.mem_cons_of_mem l2 hy, h1, h2, h3⟩
        · rintro (h | ⟨y, hy, h1, h2, h3⟩)
          · exact Or.inl (Or.inl h)
          · rcases List.mem_cons.mp hy with he | he
            · rw [he] at h3; exact Or.inl (Or.inr h3)
            · exact Or.inr ⟨y, he, h1, h2, h3⟩
    · rw [Bool.not_eq_true] at hop
      simp only [hop, Bool.false_eq_true, if_false]
      constructor
      · rintro (h | ⟨y, hy, h1, h2, h3⟩)
        · exact Or.inl h
        · exact Or.inr ⟨y, List.mem_cons_of_mem l2 hy, h1, h2, h3⟩
      · rintro (h | ⟨y, hy, h1, h2, h3⟩)
        · exact Or.inl h
        · rcases List.mem_cons.mp hy with he | he
          · rw [he] at h1; rw [h1] at hop; exact absurd hop (by simp)
          · exact Or.inr ⟨y, he, h1, h2, h3⟩

/-- Membership in the set accumulated by the outer resolution loop. -/
theorem Clause.resolveOuter_mem (clause1 clause2 : Clause)
    (acc : Finset Clause × Bool) (lits1 : List Literal) (x : Clause) :
    x ∈ (Clause.resolveOuter clause1 clause2 acc lits1).1 ↔
      x ∈ acc.1 ∨ ∃ l1 ∈ lits1, ∃ l2 ∈ clause2.literals,
        l1.is_opposite l2 = true ∧
        (Clause.resolventOf clause1 clause2 l1 l2).is_meaningless = false ∧
        x = Clause.resolventOf clause1 clause2 l1 l2 := by
  induction lits1 generalizing acc with
  | nil => simp [Clause.resolveOuter]
  | cons l1 rest ih =>
    rw [Clause.resolveOuter, ih, Clause.resolveInner_mem]
    constructor
    · rintro ((h | ⟨y, hy, h1, h2, h3⟩) | ⟨z, hz, y, hy, h1, h2, h3⟩)
      · exact Or.inl h
      · exact Or.inr ⟨l1, List.mem_cons_self l1 rest, y, hy, h1, h2, h3⟩
      · exact Or.inr ⟨z, List.mem_cons_of_mem l1 hz, y, hy, h1, h2, h3⟩
    · rintro (h | ⟨z, hz, y, hy, h1, h2, h3⟩)
      · exact Or.inl (Or.inl h)
      · rcases List.mem_cons.mp hz with he | he
        · rw [he] at h1 h2 h3
          exact Or.inl (Or.inr ⟨y, hy, h1, h2, h3⟩)
        · exact Or.inr ⟨z, he, y, hy, h1, h2, h3⟩

/-- The empty-clause flag accumulated by the outer resolution loop. -/
theorem Clause.resolveOuter_flag (clause1 clause2 : Clause)
    (acc : Finset Clause × Bool) (lits1 : List Literal) :
    (Clause.resolveOuter clause1 clause2 acc lits1).2 = true ↔
      acc.2 = true ∨ ∃ l1 ∈ lits1, ∃ l2 ∈ clause2.literals,
        l1.is_opposite l2 = true ∧
        (Clause.resolventOf clause1 clause2 l1 l2).is_meaningless = false ∧
        (Clause.resolventOf clause1 clause2 l1 l2).is_empty = true := by
  induction lits1 generalizing acc with
  | nil => simp [Clause.resolveOuter]
  | cons l1 rest ih =>
    rw [Clause.resolveOuter, ih, Clause.resolveInner_flag]
    constructor
    · rintro ((h | ⟨y, hy, h1, h2, h3⟩) | ⟨z, hz, y, hy, h1, h2, h3⟩)
      · exact Or.inl h
      · exact Or.inr ⟨l1, List.mem_cons_self l1 rest, y, hy, h1, h2, h3⟩
      · exact Or.inr ⟨z, List.mem_cons_of_mem l1 hz, y, hy, h1, h2, h3⟩
    · rintro (h | ⟨z, hz, y, hy, h1, h2, h3⟩)
      · exact Or.inl (Or.inl h)
      · rcases List.mem_cons.mp hz with he | he
        · rw [he] at h1 h2 h3
          exact Or.inl (Or.inr ⟨y, hy, h1, h2, h3⟩)
        · exact Or.inr ⟨z, he, y, hy, h1, h2, h3⟩

/-- A clause is among the resolvents of two clauses iff it is the
non-meaningless merged remainder of some opposite pair of their literals. -/
theorem Clause.mem_resolve (clause1 clause2 : Clause) (x : Clause) :
    x ∈ (Clause.resolve clause1 clause2).1 ↔
      ∃ l1 ∈ clause1.literals, ∃ l2 ∈ clause2.literals,
        l1.is_opposite l2 = true ∧
        (Clause.resolventOf clause1 clause2 l1 l2).is_meaningless = false ∧
        x = Clause.resolventOf clause1 clause2 l1 l2 := by
  rw [Clause.resolve, Clause.resolveOuter_mem]
  simp

/-- The flag returned by `Clause.resolve` is set iff some opposite pair
yields the empty clause as its (never meaningless) resolvent. -/
theorem Clause.resolve_flag (clause1 clause2 : Clause) :
    (Clause.resolve clause1 clause2).2 = true ↔
      ∃ l1 ∈ clause1.literals, ∃ l2 ∈ clause2.literals,
        l1.is_opposite l2 = true ∧
        (Clause.resolventOf clause1 clause2 l1 l2).is_meaningless = false ∧
        (Clause.resolventOf clause1 clause2 l1 l2).is_empty = true := by
  rw [Clause.resolve, Clause.resolveOuter_flag]
  simp

/-- C5: resolving the unit clauses containing `A` and `-A` yields the empty
clause among the resolvents and sets the produced-empty flag; and in
general the scan never stops early: the returned set holds exactly the
non-discarded resolvents of every opposite literal pair. -/
theorem claim_C5 :
    ((⟨[]⟩ : Clause) ∈ (Clause.resolve ⟨[⟨"A", false⟩]⟩ ⟨[⟨"A", true⟩]⟩).1 ∧
      (Clause.resolve ⟨[⟨"A", false⟩]⟩ ⟨[⟨"A", true⟩]⟩).2 = true) ∧
    ∀ clause1 clause2 x, x ∈ (Clause.resolve clause1 clause2).1 ↔
      ∃ l1 ∈ clause1.literals, ∃ l2 ∈ clause2.literals,
        l1.is_opposite l2 = true ∧
        (Clause.resolventOf clause1 clause2 l1 l2).is_meaningless = false ∧
        x = Clause.resolventOf clause1 clause2 l1 l2 :=
  ⟨⟨by decide, by decide⟩, Clause.mem_resolve⟩

/-- C6: resolving the clauses containing `A, B` and `-A, -B` yields no
resolvent holding both `B` and `-B` (the candidate resolvents are
tautologies and are discarded); and in general every clause in a returned
resolvent set is non-meaningless. -/
theorem claim_C6 :
    ((Clause.resolve ⟨[⟨"A", false⟩, ⟨"B", false⟩]⟩ ⟨[⟨"A", true⟩, ⟨"B", true⟩]⟩).1.filter
        (fun x => (⟨"B", false⟩ : Literal) ∈ x.literals ∧
          (⟨"B", true⟩ : Literal) ∈ x.literals) = ∅) ∧
    ∀ clause1 clause2 x, x ∈ (Clause.resolve clause1 clause2).1 →
      x.is_meaningless = false := by
  constructor
  · decide
  · intro clause1 clause2 x hx
    obtain ⟨l1, _, l2, _, _, hm, he⟩ := (Clause.mem_resolve clause1 clause2 x).mp hx
    rw [he]
    exact hm

/-- Witness for C6's universal part: a concrete non-tautological resolvent
of two concrete clauses. -/
theorem claim_C6_witness :
    (⟨[⟨"B", false⟩, ⟨"C", false⟩]⟩ : Clause) ∈
        (Clause.resolve ⟨[⟨"A", false⟩, ⟨"B", false⟩]⟩ ⟨[⟨"A", true⟩, ⟨"C", false⟩]⟩).1 ∧
      (⟨[⟨"B", false⟩, ⟨"C", false⟩]⟩ : Clause).is_meaningless = false :=
  ⟨by decide, claim_C6.2 ⟨[⟨"A", false⟩, ⟨"B", false⟩]⟩ ⟨[⟨"A", true⟩, ⟨"C", false⟩]⟩
    ⟨[⟨"B", false⟩, ⟨"C", false⟩]⟩ (by decide)⟩

/-- An `Option`-valued `mapM` over a list succeeds with `out` iff it
succeeds elementwise. -/
theorem mapM_option_some_iff {α β : Type} (f : α → Option β) (l : List α) (out : List β) :
    l.mapM f = some out ↔ List.Forall₂ (fun a b => f a = some b) l out := by
  induction l generalizing out with
  | nil =>
    rw [List.mapM_nil]
    show some [] = some out ↔ _
    constructor
    · intro h
      rw [← Option.some.inj h]
      exact List.Forall₂.nil
    · intro h
      rw [List.forall₂_nil_left_iff.mp h]
  | cons a t ih =>
    rw [List.mapM_cons]
    cases hf : f a with
    | none =>
      show none = some out ↔ _
      constructor
      · intro h; cases h
      · intro h
        rcases List.forall₂_cons_left_iff.mp h with ⟨b', l', hb', _, _⟩
        rw [hf] at hb'
        cases hb'
    | some b =>
      cases hm : t.mapM f with
      | none =>
        show none = some out ↔ _
        constructor
        · intro h; cases h
        · intro h
          rcases List.forall₂_cons_left_iff.mp h with ⟨b', l', _, hfor', _⟩
          have hl2 : t.mapM f = some l' := (ih l').mpr hfor'
          rw [hm] at hl2
          cases hl2
      | some xs =>
        show some (b :: xs) = some out ↔ _
        constructor
        · intro h
          rw [← Option.some.inj h]
          exact List.Forall₂.cons hf ((ih xs).mp hm)
        · intro h
          rcases List.forall₂_cons_left_iff.mp h with ⟨b', l', hb', hfor', hout⟩
          have hb2 : b' = b := by
            rw [hf] at hb'
            exact (Option.some.inj hb').symm
          have hl2 : t.mapM f = some l' := (ih l').mpr hfor'
          rw [hm] at hl2
          rw [hout, hb2, ← Option.some.inj hl2]

/-- An `Option`-valued `mapM` fails as soon as one element fails. -/
theorem mapM_option_none_of_mem {α β : Type} (f : α → Option β) (l : List α) (a : α)
    (ha : a ∈ l) (hf : f a = none) : l.mapM f = none := by
  induction l with
  | nil => simp at ha
  | cons b t ih =>
    rw [List.mapM_cons]
    rcases List.mem_cons.mp ha with he | he
    · rw [he] at hf
      rw [hf]
      rfl
    · cases hfb : f b with
      | none => rfl
      | some c =>
        rw [ih he]
        rfl

/-- C8: a token that is empty after stripping fails to parse (no literal is
returned); a clause string any of whose tokens fails to parse fails to
parse as a whole; and a build in which any query token or support clause
string fails yields no knowledge base at all (the failure is synchronous
and no partial knowledge base is returned). -/
theorem claim_C8 :
    (∀ s : String, strip s = "" → Literal.parse_literal s = none) ∧
    (∀ s : String, (∃ tok ∈ splitOnOR (strip s), Literal.parse_literal tok = none) →
      Clause.parse_clause s = none) ∧
    (∀ (alpha : String) (css : List String),
      ((∃ tok ∈ splitOnOR (strip alpha), Clause.parse_clause tok = none) ∨
        (∃ cs ∈ css, Clause.parse_clause cs = none)) →
      KnowledgeBase.build_knowledge_base alpha css = none) := by
  refine ⟨?_, ?_, ?_⟩
  · intro s h
    unfold Literal.parse_literal
    rw [h]
  · rintro s ⟨tok, htok, hfail⟩
    unfold Clause.parse_clause
    rw [mapM_option_none_of_mem Literal.parse_literal _ tok htok hfail]
    rfl
  · intro alpha css h
    unfold KnowledgeBase.build_knowledge_base
    rcases h with ⟨tok, htok, hfail⟩ | ⟨cs, hcs, hfail⟩
    · rw [mapM_option_none_of_mem
        (fun alpha_literal => (Clause.parse_clause alpha_literal).map Clause.negate_literals)
        _ tok htok (by
          show Option.map Clause.negate_literals (Clause.parse_clause tok) = none
          rw [hfail]
          rfl)]
      rfl
    · cases hA : (splitOnOR (strip alpha)).mapM
        (fun alpha_literal => (Clause.parse_clause alpha_literal).map Clause.negate_literals) with
      | none => rfl
      | some us =>
        rw [mapM_option_none_of_mem
          (fun clause_str => (Clause.parse_clause clause_str).map Clause.clean)
          _ cs hcs (by
            show Option.map Clause.clean (Clause.parse_clause cs) = none
            rw [hfail]
            rfl)]
        rfl

/-- Witness for C8: the blank token, a clause string with an empty token,
and a build whose support clause has an empty token. -/
theorem claim_C8_witness :
    (strip " " = "" ∧ Literal.parse_literal " " = none) ∧
    ((∃ tok ∈ splitOnOR (strip " OR A"), Literal.parse_literal tok = none) ∧
      Clause.parse_clause " OR A" = none) ∧
    KnowledgeBase.build_knowledge_base "A" [" OR "] = none :=
  ⟨⟨by decide, claim_C8.1 " " (by decide)⟩,
    ⟨⟨"", by decide, by decide⟩, claim_C8.2.1 " OR A" ⟨"", by decide, by decide⟩⟩,
    claim_C8.2.2 "A" [" OR "] (Or.inr ⟨" OR ", by decide, by decide⟩)⟩

/-- C10 as frozen is false: the token consisting of a single hyphen strips
to a non-empty string, yet `parse_literal` does not succeed (the source
evaluates `string_literal[1]` and dies with an uncaught `IndexError`,
modelled as `none`). -/
theorem claim_C10_counterexample :
    ¬ (strip "-" = "") ∧ Literal.parse_literal "-" = none :=
  ⟨by decide, by decide⟩

/-- C10 (amended): for every token whose stripped form is non-empty and,
when it starts with a hyphen, has at least one more character, parsing
succeeds and inspects only the optional leading hyphen and the single
following character; all trailing characters are ignored and no
unrecognized-symbol error exists. -/
theorem claim_C10 :
    (∀ (s : String) (c : Char) (rest : List Char),
      (strip s).data = c :: rest → c ≠ '-' →
      Literal.parse_literal s = some ⟨String.mk [c], false⟩) ∧
    (∀ (s : String) (c : Char) (rest : List Char),
      (strip s).data = '-' :: c :: rest →
      Literal.parse_literal s = some ⟨String.mk [c], true⟩) := by
  constructor
  · intro s c rest h hc
    unfold Literal.parse_literal
    rw [h]
    simp [hc]
  · intro s c rest h
    unfold Literal.parse_literal
    rw [h]
    simp

/-- Witness for C10 at the multi-character tokens `AB` (trailing `B`
ignored, no error) and `-CD` (negated, symbol `C`, trailing `D` ignored). -/
theorem claim_C10_witness :
    ((strip "AB").data = 'A' :: ['B'] ∧ 'A' ≠ '-' ∧
      Literal.parse_literal "AB" = some ⟨String.mk ['A'], false⟩) ∧
    ((strip "-CD").data = '-' :: 'C' :: ['D'] ∧
      Literal.parse_literal "-CD" = some ⟨String.mk ['C'], true⟩) :=
  ⟨⟨by decide, by decide, claim_C10.1 "AB" 'A' ['B'] (by decide) (by decide)⟩,
    ⟨by decide, claim_C10.2 "-CD" 'C' ['D'] (by decide)⟩⟩

/-- C7: a successful build yields exactly one clause per query token, in
order, each the negation-flipped parse of its token, followed by the
parsed-and-cleaned support clauses, in order; when every query token parses
to a single literal (the intended literal tokens), the query contributes
exactly `k` unit clauses, each holding one query literal with its negation
flag flipped. -/
theorem claim_C7 (alpha : String) (css : List String) (kb : KnowledgeBase)
    (hbuild : KnowledgeBase.build_knowledge_base alpha css = some kb)
    (hunit : ∀ tok ∈ splitOnOR (strip alpha), ∃ l : Literal,
      Clause.parse_clause tok = some ⟨[l]⟩) :
    ∃ negUnits supports : List Clause,
      kb.clauses = negUnits ++ supports ∧
      List.Forall₂ (fun tok c => ∃ l : Literal,
        Clause.parse_clause tok = some ⟨[l]⟩ ∧ c = ⟨[l.negate]⟩)
        (splitOnOR (strip alpha)) negUnits ∧
      List.Forall₂ (fun cs c => ∃ c0 : Clause,
        Clause.parse_clause cs = some c0 ∧ c = c0.clean) css supports := by
  unfold KnowledgeBase.build_knowledge_base at hbuild
  cases hA : (splitOnOR (strip alpha)).mapM
      (fun alpha_literal => (Clause.parse_clause alpha_literal).map Clause.negate_literals) with
  | none => rw [hA] at hbuild; cases hbuild
  | some negUnits =>
    rw [hA] at hbuild
    cases hB : css.mapM (fun clause_str => (Clause.parse_clause clause_str).map Clause.clean) with
    | none => rw [hB] at hbuild; cases hbuild
    | some supports =>
      rw [hB] at hbuild
      have hkb : kb = ⟨negUnits ++ supports⟩ := (Option.some.inj hbuild).symm
      refine ⟨negUnits, supports, by rw [hkb], ?_, ?_⟩
      · have hfor := (mapM_option_some_iff _ _ _).mp hA
        clear hA hB hbuild hkb
        revert hfor hunit
        generalize splitOnOR (strip alpha) = toks
        intro hunit2 hfor
        revert hunit2
        induction hfor with
        | nil => intro _; exact List.Forall₂.nil
        | cons hab hf ih =>
          intro hunit
          refine List.Forall₂.cons ?_ (ih (fun tok htok => hunit tok (List.mem_cons_of_mem _ htok)))
          obtain ⟨l, hl⟩ := hunit _ (List.mem_cons_self _ _)
          rename_i a' b' _ _
          have hmap : Option.map Clause.negate_literals (Clause.parse_clause a') = some b' := hab
          rw [hl] at hmap
          have hb : b' = Clause.negate_literals ⟨[l]⟩ := (Option.some.inj hmap).symm
          exact ⟨l, hl, by rw [hb]; rfl⟩
      · have hfor := (mapM_option_some_iff _ _ _).mp hB
        refine List.Forall₂.imp ?_ hfor
        intro cs c hc
        have : Option.map Clause.clean (Clause.parse_clause cs) = some c := hc
        cases hp : Clause.parse_clause cs with
        | none => rw [hp] at this; cases this
        | some c0 =>
          rw [hp] at this
          exact ⟨c0, rfl, (Option.some.inj this).symm⟩

/-- Witness for C7 at the query `A OR B` with support `-A OR C`: two
negated unit clauses followed by one cleaned support clause. -/
theorem claim_C7_witness :
    ∃ negUnits supports : List Clause,
      (KnowledgeBase.mk [⟨[⟨"A", true⟩]⟩, ⟨[⟨"B", true⟩]⟩,
          ⟨[⟨"A", true⟩, ⟨"C", false⟩]⟩]).clauses = negUnits ++ supports ∧
      List.Forall₂ (fun tok c => ∃ l : Literal,
        Clause.parse_clause tok = some ⟨[l]⟩ ∧ c = ⟨[l.negate]⟩)
        (splitOnOR (strip "A OR B")) negUnits ∧
      List.Forall₂ (fun cs c => ∃ c0 : Clause,
        Clause.parse_clause cs = some c0 ∧ c = c0.clean) ["-A OR C"] supports :=
  claim_C7 "A OR B" ["-A OR C"]
    ⟨[⟨[⟨"A", true⟩]⟩, ⟨[⟨"B", true⟩]⟩, ⟨[⟨"A", true⟩, ⟨"C", false⟩]⟩]⟩ (by decide)
    (by
      intro tok htok
      have hsplit : splitOnOR (strip "A OR B") = ["A ", " B"] := by decide
      rw [hsplit] at htok
      have hcase : tok = "A " ∨ tok = " B" := by simpa using htok
      rcases hcase with h | h
      · exact ⟨⟨"A", false⟩, by rw [h]; decide⟩
      · exact ⟨⟨"B", false⟩, by rw [h]; decide⟩)

/-- C9: resolution never mutates stored clauses: `clone_without_literal`,
`merge` and `resolve` leave their argument clauses' literal sequences
unchanged (they only construct new clause objects), and `pl_resolution`
leaves the knowledge base's clause list unchanged, as the state-passing
translations record. -/
theorem claim_C9 :
    (∀ (c : Clause) (l : Literal), (Clause.clone_without_literalS c l).2 = c) ∧
    (∀ c1 c2 : Clause, (Clause.mergeS c1 c2).2 = (c1, c2)) ∧
    (∀ c1 c2 : Clause, (Clause.resolveS c1 c2).2 = (c1, c2)) ∧
    (∀ (kb : KnowledgeBase) (fuel : Nat), (KnowledgeBase.pl_resolutionS kb fuel).2 = kb) :=
  ⟨fun _ _ => rfl, fun _ _ => rfl, fun _ _ => rfl, fun _ _ => rfl⟩

/-- Starting the trace one round later shifts the state indices by one. -/
theorem KnowledgeBase.stateAt_succ_shift (S : Finset Clause) (i : Nat) :
    KnowledgeBase.stateAt (S ∪ KnowledgeBase.roundNew S) i =
      KnowledgeBase.stateAt S (i + 1) := by
  induction i with
  | zero => rfl
  | succ i ih =>
    show KnowledgeBase.stateAt (S ∪ KnowledgeBase.roundNew S) i ∪ _ = _
    rw [ih]
    rfl

/-- Starting the trace one round later shifts the per-round diffs by one. -/
theorem KnowledgeBase.diffAt_succ_shift (S : Finset Clause) (i : Nat) :
    KnowledgeBase.diffAt (S ∪ KnowledgeBase.roundNew S) i =
      KnowledgeBase.diffAt S (i + 1) := by
  rw [KnowledgeBase.diffAt, KnowledgeBase.diffAt, KnowledgeBase.stateAt_succ_shift]

/-- Full characterization of the saturation loop: a completed run executed
some positive number `n` of rounds; the output records round `i`'s diff for
each `i < n` in order after the accumulator; every round before the last
neither produced the empty clause nor stalled; the answer is `true` iff the
last round produced the empty clause; and a `false` answer means the last
round produced no new clauses (and no empty clause). -/
theorem KnowledgeBase.plLoop_spec (fuel : Nat) (S : Finset Clause)
    (acc : List (Finset Clause)) (ans : Bool) (outs : List (Finset Clause))
    (h : KnowledgeBase.plLoop fuel S acc = some (ans, outs)) :
    ∃ n : Nat, 0 < n ∧
      outs = acc ++ (List.range n).map (KnowledgeBase.diffAt S) ∧
      (∀ i, i + 1 < n → KnowledgeBase.roundEmpty (KnowledgeBase.stateAt S i) = false ∧
        KnowledgeBase.diffAt S i ≠ ∅) ∧
      (ans = true ↔ KnowledgeBase.roundEmpty (KnowledgeBase.stateAt S (n - 1)) = true) ∧
      (ans = false → KnowledgeBase.roundEmpty (KnowledgeBase.stateAt S (n - 1)) = false ∧
        KnowledgeBase.diffAt S (n - 1) = ∅) := by
  induction fuel generalizing S acc with
  | zero => cases h
  | succ fuel ih =>
    rw [KnowledgeBase.plLoop] at h
    by_cases hflag : KnowledgeBase.roundEmpty S = true
    · rw [if_pos hflag] at h
      have hp := Option.some.inj h
      have hans : ans = true := (congrArg Prod.fst hp).symm
      have houts : outs = acc ++ [KnowledgeBase.roundNew S \ S] := (congrArg Prod.snd hp).symm
      refine ⟨1, Nat.one_pos, ?_, ?_, ?_, ?_⟩
      · simpa [KnowledgeBase.diffAt, KnowledgeBase.stateAt] using houts
      · intro i hi; omega
      · simpa [hans, KnowledgeBase.stateAt] using hflag
      · intro hfalse; rw [hans] at hfalse; exact absurd hfalse (by decide)
    · rw [if_neg hflag] at h
      rw [Bool.not_eq_true] at hflag
      by_cases hdiff : KnowledgeBase.roundNew S \ S = ∅
      · rw [if_pos hdiff] at h
        have hp := Option.some.inj h
        have hans : ans = false := (congrArg Prod.fst hp).symm
        have houts : outs = acc ++ [KnowledgeBase.roundNew S \ S] := (congrArg Prod.snd hp).symm
        refine ⟨1, Nat.one_pos, ?_, ?_, ?_, ?_⟩
        · simpa [KnowledgeBase.diffAt, KnowledgeBase.stateAt] using houts
        · intro i hi; omega
        · constructor
          · intro ht; rw [hans] at ht; exact absurd ht (by decide)
          · intro ht
            rw [show KnowledgeBase.stateAt S (1 - 1) = S from rfl] at ht
            rw [hflag] at ht; exact absurd ht (by decide)
        · intro _
          exact ⟨hflag, hdiff⟩
      · rw [if_neg hdiff] at h
        obtain ⟨n, hn0, houts, hmid, htrue, hfalse⟩ := ih _ _ h
        have hshiftS : ∀ j, KnowledgeBase.stateAt (S ∪ KnowledgeBase.roundNew S) j =
            KnowledgeBase.stateAt S (j + 1) := KnowledgeBase.stateAt_succ_shift S
        have hshiftD : KnowledgeBase.diffAt (S ∪ KnowledgeBase.roundNew S) =
            fun j => KnowledgeBase.diffAt S (j + 1) :=
          funext (KnowledgeBase.diffAt_succ_shift S)
        have hpred : n - 1 + 1 = n := Nat.succ_pred_eq_of_pos hn0
        refine ⟨n + 1, by omega, ?_, ?_, ?_, ?_⟩
        · rw [houts, hshiftD, List.range_succ_eq_map, List.map_cons, List.map_map,
            List.append_assoc]
          rfl
        · intro i hi
          cases i with
          | zero => exact ⟨hflag, hdiff⟩
          | succ j =>
            have hj : j + 1 < n := by omega
            have := hmid j hj
            rw [hshiftS j, KnowledgeBase.diffAt_succ_shift] at this
            exact this
        · rw [Nat.add_sub_cancel]
          rw [hshiftS (n - 1), hpred] at htrue
          exact htrue
        · intro hf
          have := hfalse hf
          rw [hshiftS (n - 1), KnowledgeBase.diffAt_succ_shift, hpred] at this
          rw [Nat.add_sub_cancel]
          exact this

/-- Merging is symmetric: the literal set of the concatenation does not
depend on the argument order. -/
theorem Clause.merge_comm (a b : Clause) : Clause.merge a b = Clause.merge b a := by
  unfold Clause.merge
  apply Clause.clean_eq_of_toFinset_eq
  rw [List.toFinset_append, List.toFinset_append, Finset.union_comm]

/-- Opposite-literal detection is symmetric. -/
theorem Literal.is_opposite_comm (a b : Literal) :
    a.is_opposite b = b.is_opposite a := by
  rw [Bool.eq_iff_iff, Literal.is_opposite_iff, Literal.is_opposite_iff]
  constructor
  · rintro ⟨h1, h2⟩; exact ⟨h1.symm, h2.symm⟩
  · rintro ⟨h1, h2⟩; exact ⟨h1.symm, h2.symm⟩

/-- A resolvent does not depend on the orientation of the clause pair. -/
theorem Clause.resolventOf_comm (c1 c2 : Clause) (l1 l2 : Literal) :
    Clause.resolventOf c2 c1 l2 l1 = Clause.resolventOf c1 c2 l1 l2 := by
  unfold Clause.resolventOf
  exact Clause.merge_comm _ _

/-- Resolution of a pair of clauses is symmetric: both orientations return
the same resolvent set and the same empty-clause flag (which is why summing
over both orientations of each unordered pair, as `roundNew` does, matches
the source's single visit per `combinations` pair). -/
theorem Clause.resolve_comm (c1 c2 : Clause) :
    Clause.resolve c1 c2 = Clause.resolve c2 c1 := by
  refine Prod.ext_iff.mpr ⟨Finset.ext fun x => ?_, ?_⟩
  · rw [Clause.mem_resolve, Clause.mem_resolve]
    constructor
    · rintro ⟨l1, h1, l2, h2, hop, hm, he⟩
      rw [← Clause.resolventOf_comm] at hm he
      exact ⟨l2, h2, l1, h1, by rw [← Literal.is_opposite_comm]; exact hop, hm, he⟩
    · rintro ⟨l2, h2, l1, h1, hop, hm, he⟩
      rw [Clause.resolventOf_comm] at hm he
      exact ⟨l1, h1, l2, h2, by rw [← Literal.is_opposite_comm]; exact hop, hm, he⟩
  · rw [Bool.eq_iff_iff, Clause.resolve_flag, Clause.resolve_flag]
    constructor
    · rintro ⟨l1, h1, l2, h2, hop, hm, he⟩
      rw [← Clause.resolventOf_comm] at hm he
      exact ⟨l2, h2, l1, h1, by rw [← Literal.is_opposite_comm]; exact hop, hm, he⟩
    · rintro ⟨l2, h2, l1, h1, hop, hm, he⟩
      rw [Clause.resolventOf_comm] at hm he
      exact ⟨l1, h1, l2, h2, by rw [← Literal.is_opposite_comm]; exact hop, hm, he⟩

/-- C1: for a knowledge base of cleaned clauses, a completed run of
`pl_resolution` returns `entailed = true` iff some round's scan over all
unordered pairs produced the empty clause — necessarily the final round, so
the loop halts immediately after that round's pair scan (all earlier rounds
neither flagged nor stalled); and it returns `entailed = false` exactly when
the final round added no new clauses with no empty clause ever seen, that
terminating empty-diff round still being appended to the returned per-round
sequence. -/
theorem claim_C1 (kb : KnowledgeBase) (fuel : Nat) (ans : Bool)
    (outs : List (Finset Clause))
    (hclean : ∀ c ∈ kb.clauses, c.clean = c)
    (hrun : kb.pl_resolution fuel = some (ans, outs)) :
    0 < outs.length ∧
    outs = (List.range outs.length).map (KnowledgeBase.diffAt kb.clauses.toFinset) ∧
    (∀ i, i + 1 < outs.length →
      KnowledgeBase.roundEmpty (KnowledgeBase.stateAt kb.clauses.toFinset i) = false ∧
      KnowledgeBase.diffAt kb.clauses.toFinset i ≠ ∅) ∧
    (ans = true ↔ ∃ i < outs.length,
      KnowledgeBase.roundEmpty (KnowledgeBase.stateAt kb.clauses.toFinset i) = true) ∧
    (ans = true ↔
      KnowledgeBase.roundEmpty
        (KnowledgeBase.stateAt kb.clauses.toFinset (outs.length - 1)) = true) ∧
    (ans = false →
      KnowledgeBase.roundEmpty
        (KnowledgeBase.stateAt kb.clauses.toFinset (outs.length - 1)) = false ∧
      KnowledgeBase.diffAt kb.clauses.toFinset (outs.length - 1) = ∅ ∧
      outs.getLast? = some ∅) := by
  obtain ⟨n, hn0, houts, hmid, htrue, hfalse⟩ :=
    KnowledgeBase.plLoop_spec fuel kb.clauses.toFinset [] ans outs hrun
  rw [List.nil_append] at houts
  have hlen : outs.length = n := by rw [houts, List.length_map, List.length_range]
  rw [hlen]
  refine ⟨hn0, by rw [← hlen] at houts ⊢; exact houts, hmid, ?_, htrue, ?_⟩
  · constructor
    · intro ht
      exact ⟨n - 1, by omega, htrue.mp ht⟩
    · rintro ⟨i, hi, hfl⟩
      cases hans : ans with
      | true => rfl
      | false =>
        exfalso
        rcases Nat.lt_or_ge i (n - 1) with hlt | hge
        · have hmf := (hmid i (by omega)).1
          rw [hmf] at hfl; exact absurd hfl (by decide)
        · have hieq : i = n - 1 := by omega
          rw [hieq] at hfl
          have hlf := (hfalse hans).1
          rw [hlf] at hfl; exact absurd hfl (by decide)
  · intro hf
    obtain ⟨h1, h2⟩ := hfalse hf
    refine ⟨h1, h2, ?_⟩
    rw [houts]
    have hn : n = (n - 1) + 1 := by omega
    rw [hn, List.range_succ, List.map_append]
    simp [List.getLast?_concat, h2]

/-- Witness for C1 at the knowledge base holding the unit clauses `A` and
`-A`: the run returns entailed iff some round produced the empty clause. -/
theorem claim_C1_witness :
    true = true ↔ ∃ i < 1, KnowledgeBase.roundEmpty
      (KnowledgeBase.stateAt
        (KnowledgeBase.mk [⟨[⟨"A", false⟩]⟩, ⟨[⟨"A", true⟩]⟩]).clauses.toFinset i) = true :=
  (claim_C1 ⟨[⟨[⟨"A", false⟩]⟩, ⟨[⟨"A", true⟩]⟩]⟩ 5 true [{(⟨[]⟩ : Clause)}]
    (by decide) (by decide)).2.2.2.1
